import Mathlib

/-!
Verification of the twistedchecker core runner (`twistedchecker/core/runner.py`):
the checker registration/restriction filter, the warning report parser,
the report formatter, the warning diff engine, and the orchestrator's
control flow.  Strings are embedded as `List Char`; Python dicts are
embedded as association lists with replace-on-insert semantics; Python
sets are embedded as `Finset`.
-/

namespace TwistedChecker

/-! ### Association lists with Python dict semantics -/

/-! ### Line splitting and joining (Python `StringIO` iteration + `"\n".join`) -/

/-! ### Report parser (`Runner.computeWarnings`) -/

/-! ### Report formatter -/

/-! ### Diff engine (`Runner.generateDiff`, dict-building part) -/

/-! ### Checker registry (`Runner.findUselessCheckers`, `unregisterChecker`,
`restrictCheckers`) -/

/-! ### Orchestrator (`Runner.run`, `Runner._optionCallbackDiff`) -/

/-- Lookup of a key in an association list (Python `d[k]` / `k in d`). -/
def lookupKey [DecidableEq κ] (k : κ) : List (κ × ν) → Option ν
  | [] => none
  | p :: rest => if p.1 = k then some p.2 else lookupKey k rest

/-- Insertion with replacement (Python `d[k] = v`): an existing binding is
replaced in place, a new key is appended at the end. -/
def insertKey [DecidableEq κ] (k : κ) (v : ν) : List (κ × ν) → List (κ × ν)
  | [] => [(k, v)]
  | p :: rest => if p.1 = k then (k, v) :: rest else p :: insertKey k v rest

/-- Python `d.get(k, dflt)`. -/
def getKeyD [DecidableEq κ] (d : List (κ × ν)) (k : κ) (dflt : ν) : ν :=
  (lookupKey k d).getD dflt

/-- The association list represents a finite map: no duplicate keys. -/
abbrev nodupKeys (d : List (κ × ν)) : Prop := (d.map Prod.fst).Nodup

/-- Auxiliary splitter: cut a character list at every newline. -/
def splitLinesAux : List Char → List Char → List (List Char)
  | [], acc => [acc.reverse]
  | c :: rest, acc =>
      if c = '\n' then acc.reverse :: splitLinesAux rest []
      else splitLinesAux rest (c :: acc)

/-- Split a character list on newlines; always returns at least one piece. -/
def splitLines (s : List Char) : List (List Char) := splitLinesAux s []

/-- The lines Python's `StringIO` iteration yields after `line.strip("\n")`:
splitting on newline, except that a trailing empty piece is not produced. -/
def pyLines (s : List Char) : List (List Char) :=
  if (splitLines s).getLastD [] = [] then (splitLines s).dropLast else splitLines s

/-- The text after the first line: each further line preceded by a newline. -/
def tailJoin (ls : List (List Char)) : List Char := ls.flatMap (fun l => '\n' :: l)

/-- Python `"\n".join(ls)`. -/
def joinLines : List (List Char) → List Char
  | [] => []
  | l :: ls => l ++ tailJoin ls

/-- `Runner.prefixModuleName = "************* Module "`. -/
def prefixModuleName : List Char := "************* Module ".data

/-- Whether a line starts with the module-header marker
(Python `line.startswith(self.prefixModuleName)`). -/
def isHeaderLine (line : List Char) : Bool := prefixModuleName.isPrefixOf line

/-- `re.search("^[WCEFR]\d{4}\:", line)`: the line starts with a severity
letter, four ASCII digits and a colon. -/
def matchesLineStart : List Char → Bool
  | c0 :: c1 :: c2 :: c3 :: c4 :: c5 :: _ =>
      (c0 == 'W' || c0 == 'C' || c0 == 'E' || c0 == 'F' || c0 == 'R') &&
      c1.isDigit && c2.isDigit && c3.isDigit && c4.isDigit && c5 == ':'
  | _ => false

/-- Python `str.replace(pat, "")`, scanning left to right and skipping over
each non-overlapping occurrence of `pat`.  Recursion is structural on a fuel
argument; `removeOccurrences` supplies fuel equal to the string length,
which suffices because every step consumes at least one character (the
pattern is nonempty whenever the skipping branch is taken). -/
def removeOccurrencesFuel (pat : List Char) : Nat → List Char → List Char
  | _, [] => []
  | 0, s => s
  | fuel + 1, c :: rest =>
      if pat.isPrefixOf (c :: rest) ∧ pat ≠ [] then
        removeOccurrencesFuel pat fuel ((c :: rest).drop pat.length)
      else c :: removeOccurrencesFuel pat fuel rest

/-- Python `s.replace(pat, "")`: remove every (left-to-right,
non-overlapping) occurrence of `pat` from `s`. -/
def removeOccurrences (pat s : List Char) : List Char :=
  removeOccurrencesFuel pat s.length s

/-- `line.replace(self.prefixModuleName, "")`: how the module name is
extracted from a header line. -/
def moduleNameOf (line : List Char) : List Char :=
  removeOccurrences prefixModuleName line

/-- One warning record is a string; a module's warnings form a `Finset`
(Python `set`). -/
abbrev WarningSet := Finset (List Char)

/-- The structured report: the dict built by `computeWarnings`, mapping
module names to warning sets. -/
abbrev Report := List (List Char × WarningSet)

/-- The loop state of `computeWarnings`: the dict built so far, the current
module name (`None` initially), and the current module's accumulated warning
records, most recent first. -/
structure ParseState where
  warnings : Report
  currentModule : Option (List Char)
  acc : List (List Char)
deriving DecidableEq

/-- Flushing the accumulated records into the dict, guarded by Python
truthiness of `currentModule` (both `None` and `""` are falsy). -/
def flushModule (st : ParseState) : Report :=
  match st.currentModule with
  | none => st.warnings
  | some m =>
      if m = [] then st.warnings
      else insertKey m st.acc.reverse.toFinset st.warnings

/-- The body of the line loop in `computeWarnings`. -/
def parseLine (st : ParseState) (line : List Char) : ParseState :=
  if isHeaderLine line then
    { warnings := flushModule st
      currentModule := some (moduleNameOf line)
      acc := [] }
  else if matchesLineStart line then
    { st with acc := line :: st.acc }
  else
    match st.acc with
    | [] => st
    | r :: rs => { st with acc := (r ++ '\n' :: line) :: rs }

/-- `Runner.computeWarnings` on an already-split list of lines. -/
def computeWarningsLines (lines : List (List Char)) : Report :=
  flushModule (lines.foldl parseLine ⟨[], none, []⟩)

/-- `Runner.computeWarnings`: parse a raw report text into the structured
per-module warning dict. -/
def computeWarnings (s : List Char) : Report :=
  computeWarningsLines (pyLines s)

/-- Insert an element into a list ordered by `le`. -/
def insertLe (le : α → α → Bool) (x : α) : List α → List α
  | [] => [x]
  | y :: ys => if le x y then x :: y :: ys else y :: insertLe le x ys

/-- Insertion sort by `le`. -/
def isort (le : α → α → Bool) : List α → List α
  | [] => []
  | x :: xs => insertLe le x (isort le xs)

/-- Total lexicographic comparison on strings. -/
def lexLe : List Char → List Char → Bool
  | [], _ => true
  | _ :: _, [] => false
  | a :: as, b :: bs => if a = b then lexLe as bs else decide (a < b)

/-- Sorting by `lexLe` depends only on the multiset of elements: `lexLe` is
total, transitive and antisymmetric, so any two permutations of the same
elements have the same insertion sort.  Packaged as a definition so that
`sortWarnings` below can lift the sort to multisets. -/
def isortLexPermInvariant :
    ∀ l1 l2 : List (List Char), l1.Perm l2 → isort lexLe l1 = isort lexLe l2 := by
  have htot : ∀ a b : List Char, lexLe a b = true ∨ lexLe b a = true := by
    intro a
    induction a with
    | nil => intro b; exact Or.inl rfl
    | cons x xs ih =>
        intro b
        cases b with
        | nil => exact Or.inr rfl
        | cons y ys =>
            by_cases hxy : x = y
            · subst hxy
              simpa [lexLe] using ih ys
            · simp only [lexLe, if_neg hxy, if_neg (Ne.symm hxy),
                decide_eq_true_eq]
              exact lt_or_gt_of_ne hxy
  have htrans : ∀ a b c : List Char,
      lexLe a b = true → lexLe b c = true → lexLe a c = true := by
    intro a
    induction a with
    | nil => intro b c _ _; rfl
    | cons x xs ih =>
        intro b c hab hbc
        cases b with
        | nil => simp [lexLe] at hab
        | cons y ys =>
            cases c with
            | nil => simp [lexLe] at hbc
            | cons z zs =>
                by_cases hxy : x = y <;> by_cases hyz : y = z
                · subst hxy
                  subst hyz
                  simp only [lexLe, if_pos rfl] at hab hbc ⊢
                  exact ih ys zs hab hbc
                · subst hxy
                  simp only [lexLe, if_pos rfl, if_neg hyz,
                    decide_eq_true_eq] at hbc ⊢
                  exact hbc
                · subst hyz
                  simp only [lexLe, if_neg hxy, decide_eq_true_eq] at hab ⊢
                  exact hab
                · simp only [lexLe, if_neg hxy, if_neg hyz,
                    decide_eq_true_eq] at hab hbc
                  by_cases hxz : x = z
                  · subst hxz
                    exact absurd (lt_trans hab hbc) (lt_irrefl x)
                  · simp only [lexLe, if_neg hxz, decide_eq_true_eq]
                    exact lt_trans hab hbc
  have hanti : ∀ a b : List Char,
      lexLe a b = true → lexLe b a = true → a = b := by
    intro a
    induction a with
    | nil =>
        intro b _ hba
        cases b with
        | nil => rfl
        | cons y ys => simp [lexLe] at hba
    | cons x xs ih =>
        intro b hab hba
        cases b with
        | nil => simp [lexLe] at hab
        | cons y ys =>
            by_cases hxy : x = y
            · subst hxy
              simp only [lexLe, if_pos rfl] at hab hba
              rw [ih ys hab hba]
            · simp only [lexLe, if_neg hxy, if_neg (Ne.symm hxy),
                decide_eq_true_eq] at hab hba
              exact absurd hba (lt_asymm hab)
  have hinsperm : ∀ (x : List Char) l, (insertLe lexLe x l).Perm (x :: l) := by
    intro x l
    induction l with
    | nil => simp [insertLe]
    | cons y ys ih =>
        by_cases h : lexLe x y
        · simp [insertLe, h]
        · simp only [insertLe, h, Bool.false_eq_true, if_false]
          exact (ih.cons y).trans (List.Perm.swap x y ys)
  have hsortperm : ∀ l : List (List Char), (isort lexLe l).Perm l := by
    intro l
    induction l with
    | nil => simp [isort]
    | cons x xs ih => exact (hinsperm x (isort lexLe xs)).trans (ih.cons x)
  have hinssorted : ∀ (x : List Char) l,
      l.Pairwise (fun a b => lexLe a b = true) →
      (insertLe lexLe x l).Pairwise (fun a b => lexLe a b = true) := by
    intro x l
    induction l with
    | nil => intro _; simp [insertLe]
    | cons y ys ih =>
        intro hp
        obtain ⟨hy, hys⟩ := List.pairwise_cons.mp hp
        cases hle : lexLe x y with
        | true =>
            simp only [insertLe, hle, if_pos]
            refine List.pairwise_cons.mpr ⟨?_, hp⟩
            intro b hb
            rcases List.mem_cons.mp hb with rfl | hb
            · exact hle
            · exact htrans x y b hle (hy b hb)
        | false =>
            simp only [insertLe, hle, Bool.false_eq_true, if_false]
            refine List.pairwise_cons.mpr ⟨?_, ih hys⟩
            intro b hb
            rcases List.mem_cons.mp ((hinsperm x ys).mem_iff.mp hb) with h | h
            · rw [h]
              rcases htot x y with h' | h'
              · exact absurd h' (by simp [hle])
              · exact h'
            · exact hy b h
  have hsorted : ∀ l : List (List Char),
      (isort lexLe l).Pairwise (fun a b => lexLe a b = true) := by
    intro l
    induction l with
    | nil => simp [isort]
    | cons x xs ih => exact hinssorted x (isort lexLe xs) ih
  intro l1 l2 h
  haveI : IsAntisymm (List Char) (fun a b => lexLe a b = true) := ⟨hanti⟩
  exact List.eq_of_perm_of_sorted
    ((hsortperm l1).trans (h.trans (hsortperm l2).symm))
    (hsorted l1) (hsorted l2)

/-- A module's warning records in canonical (lexicographic) order: the
insertion sort of the set's elements, lifted from the underlying multiset. -/
def sortWarnings (s : WarningSet) : List (List Char) :=
  Quot.lift (isort lexLe) (fun l1 l2 h => isortLexPermInvariant l1 l2 h) s.val

/-- A report's module entries in canonical (lexicographic) key order. -/
def sortReport (r : Report) : Report :=
  isort (fun a b => lexLe a.1 b.1) r

/-- Modelled from the spec: `formatWarnings` is absent from the source tree
(only its tests and the spec describe it); per spec §4.3 it emits, for each
module in canonical (lexicographically sorted) order, the module-header line
followed by the module's warning records in canonical order, all joined with
newlines. -/
def formatWarnings (report : Report) : List Char :=
  joinLines ((sortReport report).flatMap
    (fun p => (prefixModuleName ++ p.1) :: sortWarnings p.2))

/-- A module name the report format can carry faithfully: non-empty (Python
truthiness in the parser's flush), no embedded newline (it must fit on the
header line), and no embedded occurrence of the header prefix (extraction
uses `str.replace`, which removes every occurrence). -/
abbrev validModuleName (name : List Char) : Prop :=
  name ≠ [] ∧ '\n' ∉ name ∧ ¬ prefixModuleName <:+: name

/-- A warning record the report format can carry faithfully, per the spec's
data model: the primary line matches the MessageID pattern, continuation
lines neither match it nor begin with the module-header prefix, and the
record does not end in a newline (line splitting drops a trailing empty
line at the end of the text). -/
abbrev validWarning (w : List Char) : Prop :=
  matchesLineStart ((splitLines w).headD []) = true ∧
  (∀ l ∈ (splitLines w).tail,
    matchesLineStart l = false ∧ isHeaderLine l = false) ∧
  (splitLines w).getLastD [] ≠ []

/-- The line block a formatted module contributes: its header line followed
by the lines of its sorted warning records. -/
def blockLines (p : List Char × WarningSet) : List (List Char) :=
  (prefixModuleName ++ p.1) :: (sortWarnings p.2).flatMap splitLines

/-- The spec's round-trip claim as stated: for every ModuleReport (a map,
with warning records whose primary line matches the MessageID pattern),
parsing the formatted text restores the report. -/
def roundTripAsStated : Prop :=
  ∀ m : Report, nodupKeys m →
    (∀ p ∈ m, ∀ w ∈ p.2, matchesLineStart ((splitLines w).headD []) = true) →
    ∀ key, lookupKey key (computeWarnings (formatWarnings m)) = lookupKey key m

/-- The dict-building loop of `Runner.generateDiff`: for every module of the
current run, the warnings absent from the baseline; modules whose difference
is empty are skipped. -/
def generateDiffMap (previousErrors currentErrors : Report) : Report :=
  currentErrors.foldl
    (fun newErrors p =>
      let errors := p.2 \ getKeyD previousErrors p.1 ∅
      if errors = ∅ then newErrors else insertKey p.1 errors newErrors)
    []

/-- A pylint checker as the runner sees it: an identity (distinct instances
are distinct objects), a name, and the set of message IDs it declares
(`set(checker.msgs)`). -/
structure Checker where
  ident : Nat
  name : List Char
  msgs : Finset (List Char)
deriving DecidableEq

/-- The engine structures the runner touches: the name-indexed checker table
`linter._checkers`, the report table `linter._reports` (only key membership
matters), and the option-provider list `linter.options_providers`. -/
structure LinterState where
  checkersTable : List (List Char × List Checker)
  reports : List Checker
  optionsProviders : List Checker
deriving DecidableEq

/-- `Runner.unregisterChecker`.  `self.linter._checkers[checker.name]` raises
`KeyError` when the name is absent and `.remove(checker)` raises `ValueError`
when the checker is absent from the bucket (modelled as `none`); the report
table and option-provider removals are guarded by membership tests. -/
def unregisterChecker (st : LinterState) (checker : Checker) : Option LinterState :=
  match lookupKey checker.name st.checkersTable with
  | none => none
  | some bucket =>
      if checker ∈ bucket then
        let st1 : LinterState :=
          { st with checkersTable :=
              insertKey checker.name (bucket.erase checker) st.checkersTable }
        let st2 : LinterState :=
          if checker ∈ st1.reports then
            { st1 with reports := st1.reports.erase checker }
          else st1
        some (if checker ∈ st2.optionsProviders then
          { st2 with optionsProviders := st2.optionsProviders.erase checker }
        else st2)
      else none

/-- `Runner.findUselessCheckers`: every registered checker whose message set
does not intersect the allowed messages. -/
def findUselessCheckers (st : LinterState) (allowedMessages : Finset (List Char)) :
    List Checker :=
  st.checkersTable.foldl
    (fun uselessCheckers p =>
      uselessCheckers ++ p.2.filter (fun checker => checker.msgs ∩ allowedMessages = ∅))
    []

/-- `Runner.restrictCheckers`: unregister every useless checker in order; a
raise from `unregisterChecker` propagates. -/
def restrictCheckers (st : LinterState) (allowedMessages : Finset (List Char)) :
    Option LinterState :=
  (findUselessCheckers st allowedMessages).foldlM
    (fun s checker => unregisterChecker s checker) st

/-- The engine registry invariant `Runner` relies on: the checker table is a
genuine dict, every bucket holds (distinct) checkers filed under their own
name, and the report table and option-provider list hold no duplicates. -/
def wfLinter (st : LinterState) : Prop :=
  nodupKeys st.checkersTable ∧
  (∀ p ∈ st.checkersTable, (∀ c ∈ p.2, c.name = p.1) ∧ p.2.Nodup) ∧
  st.reports.Nodup ∧ st.optionsProviders.Nodup

/-- The checker can be reached through its own name in the checker table —
exactly what `unregisterChecker` needs in order not to raise. -/
def findable (c : Checker) (st : LinterState) : Prop :=
  ∃ bucket, lookupKey c.name st.checkersTable = some bucket ∧ c ∈ bucket

/-- The checker appears in none of the three engine structures. -/
def absentEverywhere (c : Checker) (st : LinterState) : Prop :=
  (∀ p ∈ st.checkersTable, c ∉ p.2) ∧ c ∉ st.reports ∧ c ∉ st.optionsProviders

/-- `Runner.errorResultNotExist % val`:
`"Error: Result file '%s' does not exist."` with the path substituted. -/
def errorResultNotExist (val : List Char) : List Char :=
  "Error: Result file '".data ++ val ++ "' does not exist.".data

/-- The process exit status a Python `SystemExit` produces: `sys.exit()`
carries code `None`, which the interpreter maps to status `0`. -/
def pythonExitStatus : Option Nat → Nat
  | none => 0
  | some n => n

/-- Outcome of `Runner._optionCallbackDiff`: either the process exits
(message printed to stderr, `SystemExit` code) or the diff option is set. -/
inductive DiffCallbackResult where
  | exit (stderrMessage : List Char) (code : Option Nat)
  | setDiffOption (val : List Char)
deriving DecidableEq

/-- `Runner._optionCallbackDiff`: if the given value is not an existing file
(the file system is modelled by the list of existing paths), print the error
to stderr and call `sys.exit()` (code `None`); otherwise record the value as
the diff option. -/
def optionCallbackDiff (existingPaths : List (List Char)) (val : List Char) :
    DiffCallbackResult :=
  if val ∈ existingPaths then .setDiffOption val
  else .exit (errorResultNotExist val) none

/-- The observable steps `Runner.run` can take after command-line parsing. -/
inductive RunEvent where
  | displayHelp
  | prepareDiff
  | engineCheck (args : List (List Char))
  | showDiffResults
deriving DecidableEq

/-- The `except SystemExit` handler in `Runner.run`: `exc.code == 2` is
remapped to `32`, any other code (including `None`) is re-raised unchanged. -/
def remapExitCode (code : Option Nat) : Option Nat :=
  if code = some 2 then some 32 else code

/-- `Runner.run` after `load_command_line_configuration`, whose outcome is
either a `SystemExit` code or the remaining positional arguments: on a raise
the remapped code propagates and nothing else runs; otherwise help is shown
when no arguments remain, the diff capture is prepared when the diff option
is set, the engine's `check` is invoked on the arguments, and the diff
results are shown when the diff option is set. -/
def runModel (parseOutcome : Except (Option Nat) (List (List Char)))
    (diffOption : Option (List Char)) : Except (Option Nat) (List RunEvent) :=
  match parseOutcome with
  | .error code => .error (remapExitCode code)
  | .ok args =>
      .ok ((if args.isEmpty then [RunEvent.displayHelp] else []) ++
           (if diffOption.isSome then [RunEvent.prepareDiff] else []) ++
           [RunEvent.engineCheck args] ++
           (if diffOption.isSome then [RunEvent.showDiffResults] else []))

/-! ### Statements of spec claims that the code refutes -/

/-- The spec's claim that on an empty resolved argument list the orchestrator
displays the help message and stops without invoking the engine. -/
def helpStopsWithoutEngine : Prop :=
  ∀ (diffOption : Option (List Char)) (events : List RunEvent),
    runModel (Except.ok []) diffOption = Except.ok events →
    RunEvent.displayHelp ∈ events ∧ ∀ args, RunEvent.engineCheck args ∉ events

/-- The spec's claim that a missing baseline file makes the diff callback
print exactly the error message and terminate with a non-zero exit status. -/
def missingBaselineExitsNonzero : Prop :=
  ∀ (existingPaths : List (List Char)) (val : List Char), val ∉ existingPaths →
    ∃ code, optionCallbackDiff existingPaths val =
        DiffCallbackResult.exit (errorResultNotExist val) code ∧
      pythonExitStatus code ≠ 0

/-- The spec's claim that `unregisterChecker` never raises, no matter which
of the three engine structures still contains the checker. -/
def removalNeverRaises : Prop :=
  ∀ (st : LinterState) (checker : Checker), (unregisterChecker st checker).isSome

/-- The module name used in concrete parsing scenarios. -/
def fooName : List Char := "foo".data

/-- The header line announcing module `foo`. -/
def headerFoo : List Char := "************* Module foo".data

/-- A warning line taken from the spec's Scenario A. -/
def warningW9001 : List Char := "W9001:  1,0: Missing copyright header".data

/-- The spec's claim about lines that are neither headers nor warning starts,
instantiated at module `foo` with warning `warningW9001`: non-empty lines are
appended to the open record with a line break, lines with no open record are
discarded, and empty lines are never appended as continuations. -/
def continuationsAsSpecified : Prop :=
  ∀ (other : List Char),
    isHeaderLine other = false → matchesLineStart other = false →
    (other ≠ [] → computeWarningsLines [headerFoo, warningW9001, other] =
        [(fooName, {warningW9001 ++ '\n' :: other})]) ∧
    (computeWarningsLines [headerFoo, other] = [(fooName, (∅ : WarningSet))]) ∧
    (other = [] → computeWarningsLines [headerFoo, warningW9001, other] =
        [(fooName, {warningW9001})])

/-- A checker used by the concrete refuting states below. -/
def headerChecker : Checker :=
  ⟨0, "header".data, {"W9001".data, "W9002".data}⟩

/-- A linter state in which `headerChecker` sits in the report table and the
option-provider list but not in the name-indexed checker table. -/
def stateMissingTableEntry : LinterState :=
  ⟨[], [headerChecker], [headerChecker]⟩

/-! ### Helper lemmas -/

theorem lookupKey_insertKey_self [DecidableEq κ] (k : κ) (v : ν) (d : List (κ × ν)) :
    lookupKey k (insertKey k v d) = some v := by
  induction d with
  | nil => simp [insertKey, lookupKey]
  | cons p rest ih =>
      by_cases h : p.1 = k
      · simp [insertKey, h, lookupKey]
      · simp [insertKey, h, lookupKey, ih]

theorem lookupKey_insertKey_ne [DecidableEq κ] (k k' : κ) (v : ν) (d : List (κ × ν))
    (h : k' ≠ k) : lookupKey k' (insertKey k v d) = lookupKey k' d := by
  induction d with
  | nil => simp [insertKey, lookupKey, Ne.symm h]
  | cons p rest ih =>
      by_cases hp : p.1 = k
      · subst hp
        simp [insertKey, lookupKey, Ne.symm h]
      · simp only [insertKey, if_neg hp]
        by_cases hp' : p.1 = k'
        · simp [lookupKey, hp']
        · simp [lookupKey, hp', ih]

theorem keys_insertKey_of_mem [DecidableEq κ] (k : κ) (v : ν) (d : List (κ × ν))
    (h : lookupKey k d ≠ none) :
    (insertKey k v d).map Prod.fst = d.map Prod.fst := by
  induction d with
  | nil => simp [lookupKey] at h
  | cons p rest ih =>
      by_cases hp : p.1 = k
      · simp [insertKey, hp]
      · simp [lookupKey, hp] at h
        simp [insertKey, hp, ih h]

theorem lookupKey_eq_some_of_mem [DecidableEq κ] {d : List (κ × ν)} {k : κ} {v : ν}
    (hnodup : nodupKeys d) (hmem : (k, v) ∈ d) : lookupKey k d = some v := by
  induction d with
  | nil => simp at hmem
  | cons p rest ih =>
      simp only [nodupKeys, List.map_cons, List.nodup_cons] at hnodup
      rcases List.mem_cons.mp hmem with h | h
      · subst h
        simp [lookupKey]
      · have hk : p.1 ≠ k := by
          intro he
          exact hnodup.1 (he ▸ (List.mem_map.mpr ⟨(k, v), h, rfl⟩))
        simp [lookupKey, hk]
        exact ih hnodup.2 h

theorem mem_of_lookupKey_eq_some [DecidableEq κ] {d : List (κ × ν)} {k : κ} {v : ν}
    (h : lookupKey k d = some v) : (k, v) ∈ d := by
  induction d with
  | nil => simp [lookupKey] at h
  | cons p rest ih =>
      by_cases hp : p.1 = k
      · simp [lookupKey, hp] at h
        have hpkv : p = (k, v) := by
          cases p
          simp_all
        rw [← hpkv]
        exact List.mem_cons_self _ _
      · simp [lookupKey, hp] at h
        exact List.mem_cons.mpr (Or.inr (ih h))

theorem lookupKey_eq_none_iff [DecidableEq κ] {d : List (κ × ν)} {k : κ} :
    lookupKey k d = none ↔ k ∉ d.map Prod.fst := by
  induction d with
  | nil => simp [lookupKey]
  | cons p rest ih =>
      by_cases hp : p.1 = k
      · simp [lookupKey, hp]
      · simp [lookupKey, hp, ih, Ne.symm hp]

theorem lookupKey_perm [DecidableEq κ] {d d' : List (κ × ν)}
    (hperm : d.Perm d') (hnodup : nodupKeys d) (k : κ) :
    lookupKey k d = lookupKey k d' := by
  have hnodup' : nodupKeys d' := by
    have : (d.map Prod.fst).Perm (d'.map Prod.fst) := hperm.map Prod.fst
    exact this.nodup_iff.mp hnodup
  cases h : lookupKey k d with
  | some v =>
      exact (lookupKey_eq_some_of_mem hnodup' (hperm.mem_iff.mp
        (mem_of_lookupKey_eq_some h))).symm
  | none =>
      cases h' : lookupKey k d' with
      | some v =>
          exact absurd (lookupKey_eq_some_of_mem hnodup
            (hperm.mem_iff.mpr (mem_of_lookupKey_eq_some h'))) (by simp [h])
      | none => rfl

theorem splitLinesAux_ne_nil (s acc : List Char) : splitLinesAux s acc ≠ [] := by
  induction s generalizing acc with
  | nil => simp [splitLinesAux]
  | cons c rest ih =>
      by_cases h : c = '\n'
      · simp [splitLinesAux, h]
      · simp [splitLinesAux, h]
        exact ih _

theorem splitLines_ne_nil (s : List Char) : splitLines s ≠ [] :=
  splitLinesAux_ne_nil s []

theorem splitLinesAux_append_newline (a b acc : List Char) :
    splitLinesAux (a ++ '\n' :: b) acc = splitLinesAux a acc ++ splitLines b := by
  induction a generalizing acc with
  | nil => simp [splitLinesAux, splitLines]
  | cons c rest ih =>
      by_cases h : c = '\n'
      · simp [splitLinesAux, h, ih, splitLines]
      · simp [splitLinesAux, h, ih]

/-- Splitting distributes over a newline join boundary. -/
theorem splitLines_append_newline (a b : List Char) :
    splitLines (a ++ '\n' :: b) = splitLines a ++ splitLines b :=
  splitLinesAux_append_newline a b []

theorem splitLinesAux_no_newline (s acc : List Char) (h : '\n' ∉ s) :
    splitLinesAux s acc = [acc.reverse ++ s] := by
  induction s generalizing acc with
  | nil => simp [splitLinesAux]
  | cons c rest ih =>
      simp only [List.mem_cons] at h
      push_neg at h
      have hc : ¬ (c = '\n') := fun he => h.1 he.symm
      simp [splitLinesAux, hc, ih _ h.2]

/-- A newline-free character list splits into exactly itself. -/
theorem splitLines_no_newline (s : List Char) (h : '\n' ∉ s) :
    splitLines s = [s] := by
  simpa using splitLinesAux_no_newline s [] h

/-- Splitting a newline join of nonempty shape yields the concatenation of the
splits of the pieces. -/
theorem splitLines_joinLines (l : List Char) (ls : List (List Char)) :
    splitLines (joinLines (l :: ls)) = (l :: ls).flatMap splitLines := by
  induction ls generalizing l with
  | nil => simp [joinLines, tailJoin]
  | cons m ms ih =>
      have : joinLines (l :: m :: ms) = l ++ '\n' :: joinLines (m :: ms) := by
        simp [joinLines, tailJoin, List.flatMap]
      rw [this, splitLines_append_newline, ih]
      simp [List.flatMap]

theorem insertLe_perm (le : α → α → Bool) (x : α) (l : List α) :
    (insertLe le x l).Perm (x :: l) := by
  induction l with
  | nil => simp [insertLe]
  | cons y ys ih =>
      by_cases h : le x y
      · simp [insertLe, h]
      · simp only [insertLe, h, Bool.false_eq_true, if_false]
        exact (ih.cons y).trans (List.Perm.swap x y ys)

theorem isort_perm (le : α → α → Bool) (l : List α) : (isort le l).Perm l := by
  induction l with
  | nil => simp [isort]
  | cons x xs ih => exact (insertLe_perm le x (isort le xs)).trans (ih.cons x)

/-- Lookup after the diff-building fold of `generateDiffMap`, for a current
report with no duplicate module keys. -/
theorem generateDiffMap_fold_lookup (l : Report) (baseline : Report) (A : Report)
    (k : List Char) (hnodup : nodupKeys l) :
    lookupKey k (l.foldl (fun newErrors p =>
        let errors := p.2 \ getKeyD baseline p.1 ∅
        if errors = ∅ then newErrors else insertKey p.1 errors newErrors) A) =
      match lookupKey k l with
      | some ws =>
          if ws \ getKeyD baseline k ∅ = ∅ then lookupKey k A
          else some (ws \ getKeyD baseline k ∅)
      | none => lookupKey k A := by
  induction l generalizing A with
  | nil => simp [lookupKey]
  | cons p rest ih =>
      simp only [nodupKeys, List.map_cons, List.nodup_cons] at hnodup
      rw [List.foldl_cons, ih _ hnodup.2]
      by_cases hk : p.1 = k
      · subst hk
        have hrest : lookupKey p.1 rest = none :=
          lookupKey_eq_none_iff.mpr hnodup.1
        simp only [lookupKey, if_pos rfl, hrest]
        by_cases hd : p.2 \ getKeyD baseline p.1 ∅ = ∅
        · simp [hd]
        · simp [hd, lookupKey_insertKey_self]
      · simp only [lookupKey, if_neg hk]
        have hA : lookupKey k
            (if p.2 \ getKeyD baseline p.1 ∅ = ∅ then A
             else insertKey p.1 (p.2 \ getKeyD baseline p.1 ∅) A) = lookupKey k A := by
          by_cases hd : p.2 \ getKeyD baseline p.1 ∅ = ∅
          · simp [hd]
          · simp [hd, lookupKey_insertKey_ne _ _ _ _ (Ne.symm hk)]
        cases lookupKey k rest with
        | none => simpa using hA
        | some ws => simp only [hA]

/-- When every module of the folded list already carries exactly its baseline
warnings, the diff-building fold adds nothing. -/
theorem generateDiffMap_fold_self (l : Report) (prev : Report) (A : Report)
    (h : ∀ p ∈ l, getKeyD prev p.1 ∅ = p.2) :
    l.foldl (fun newErrors p =>
        let errors := p.2 \ getKeyD prev p.1 ∅
        if errors = ∅ then newErrors else insertKey p.1 errors newErrors) A = A := by
  induction l generalizing A with
  | nil => simp
  | cons p rest ih =>
      have hp : getKeyD prev p.1 ∅ = p.2 := h p (List.mem_cons_self _ _)
      have : p.2 \ getKeyD prev p.1 ∅ = ∅ := by
        rw [hp]
        exact Finset.sdiff_self p.2
      simp only [List.foldl_cons, this, if_pos rfl]
      exact ih A (fun q hq => h q (List.mem_cons_of_mem _ hq))

/-- Membership in the accumulator fold of `findUselessCheckers`. -/
theorem mem_findUselessCheckers_fold (tbl : List (List Char × List Checker))
    (acc : List Checker) (A : Finset (List Char)) (c : Checker) :
    c ∈ tbl.foldl (fun u p => u ++ p.2.filter (fun ch => ch.msgs ∩ A = ∅)) acc ↔
      c ∈ acc ∨ ∃ p ∈ tbl, c ∈ p.2 ∧ c.msgs ∩ A = ∅ := by
  induction tbl generalizing acc with
  | nil => simp
  | cons p rest ih =>
      rw [List.foldl_cons, ih]
      simp only [List.mem_append, List.mem_filter, List.mem_cons]
      constructor
      · rintro (⟨hc | ⟨hc, hd⟩⟩ | ⟨q, hq, hcq, hd⟩)
        · exact Or.inl hc
        · exact Or.inr ⟨p, Or.inl rfl, hc, by simpa using hd⟩
        · exact Or.inr ⟨q, Or.inr hq, hcq, hd⟩
      · rintro (hc | ⟨q, hq | hq, hcq, hd⟩)
        · exact Or.inl (Or.inl hc)
        · exact Or.inl (Or.inr ⟨hq ▸ hcq, by simpa using hd⟩)
        · exact Or.inr ⟨q, hq, hcq, hd⟩

theorem removeOccurrencesFuel_succ_cons (pat : List Char) (fuel : Nat) (c : Char)
    (rest : List Char) :
    removeOccurrencesFuel pat (fuel + 1) (c :: rest) =
      if pat.isPrefixOf (c :: rest) ∧ pat ≠ [] then
        removeOccurrencesFuel pat fuel ((c :: rest).drop pat.length)
      else c :: removeOccurrencesFuel pat fuel rest := rfl

/-- A string with no occurrence of the pattern is unchanged by replacement. -/
theorem removeOccurrencesFuel_no_occurrence (pat : List Char) (fuel : Nat)
    (s : List Char) (h : ¬ pat <:+: s) :
    removeOccurrencesFuel pat fuel s = s := by
  induction fuel generalizing s with
  | zero => cases s <;> rfl
  | succ fuel ih =>
      cases s with
      | nil => rfl
      | cons c rest =>
          rw [removeOccurrencesFuel_succ_cons]
          have hpre : ¬ (pat.isPrefixOf (c :: rest) ∧ pat ≠ []) := by
            rintro ⟨hp, -⟩
            exact h (List.isPrefixOf_iff_prefix.mp hp).isInfix
          rw [if_neg hpre]
          rw [ih rest (fun hi => h (List.infix_cons hi))]

/-- Replacing the pattern in `pat ++ m` when `m` itself contains no
occurrence removes exactly the leading copy. -/
theorem removeOccurrences_append_not_infix (pat m : List Char) (hpat : pat ≠ [])
    (h : ¬ pat <:+: m) : removeOccurrences pat (pat ++ m) = m := by
  obtain ⟨c, ptl, rfl⟩ : ∃ c ptl, pat = c :: ptl := by
    cases pat with
    | nil => exact absurd rfl hpat
    | cons c ptl => exact ⟨c, ptl, rfl⟩
  rw [removeOccurrences]
  have hl : ((c :: ptl) ++ m).length = (ptl ++ m).length + 1 := by simp
  rw [hl, List.cons_append, removeOccurrencesFuel_succ_cons]
  have hpre : (c :: ptl).isPrefixOf (c :: (ptl ++ m)) = true := by
    rw [List.isPrefixOf_iff_prefix, ← List.cons_append]
    exact List.prefix_append _ _
  rw [if_pos ⟨hpre, hpat⟩]
  have hdrop : (c :: (ptl ++ m)).drop (c :: ptl).length = m := by
    rw [← List.cons_append]
    exact List.drop_left _ _
  rw [hdrop]
  exact removeOccurrencesFuel_no_occurrence _ _ _ h

/-- A module-header line built from the prefix and a name whose text does not
itself contain the prefix parses back to exactly that name. -/
theorem moduleNameOf_prefix_append (name : List Char)
    (h : ¬ prefixModuleName <:+: name) :
    moduleNameOf (prefixModuleName ++ name) = name :=
  removeOccurrences_append_not_infix prefixModuleName name (by decide) h

theorem isHeaderLine_prefix_append (name : List Char) :
    isHeaderLine (prefixModuleName ++ name) = true := by
  simp [isHeaderLine, List.isPrefixOf_iff_prefix, List.prefix_append]

/-- A header line starts with a star. -/
theorem isHeaderLine_starts_star {c : Char} {rest : List Char}
    (h : isHeaderLine (c :: rest) = true) : c = '*' := by
  have hp : prefixModuleName = '*' :: "************ Module ".data := by decide
  rw [isHeaderLine, hp] at h
  simp only [List.isPrefixOf, Bool.and_eq_true, beq_iff_eq] at h
  exact h.1.symm

/-- A line matching the MessageID pattern starts with a severity letter. -/
theorem matchesLineStart_head (l : List Char) (h : matchesLineStart l = true) :
    ∃ c rest, l = c :: rest ∧
      (c = 'W' ∨ c = 'C' ∨ c = 'E' ∨ c = 'F' ∨ c = 'R') := by
  match l with
  | [] => simp [matchesLineStart] at h
  | [c0] => simp [matchesLineStart] at h
  | [c0, c1] => simp [matchesLineStart] at h
  | [c0, c1, c2] => simp [matchesLineStart] at h
  | [c0, c1, c2, c3] => simp [matchesLineStart] at h
  | [c0, c1, c2, c3, c4] => simp [matchesLineStart] at h
  | c0 :: c1 :: c2 :: c3 :: c4 :: c5 :: r =>
      simp only [matchesLineStart, Bool.and_eq_true, Bool.or_eq_true,
        beq_iff_eq] at h
      refine ⟨c0, _, rfl, ?_⟩
      tauto

/-- A line matching the MessageID pattern is never a module-header line. -/
theorem matches_not_header (l : List Char) (h : matchesLineStart l = true) :
    isHeaderLine l = false := by
  obtain ⟨c, rest, rfl, hc⟩ := matchesLineStart_head l h
  by_contra hh
  rw [Bool.not_eq_false] at hh
  have := isHeaderLine_starts_star hh
  subst this
  rcases hc with h | h | h | h | h <;> exact absurd h (by decide)

/-- Folding the parser over warning-start lines appends each as a fresh
record, touching neither the dict nor the current module. -/
theorem foldl_parseLine_warningLines (ws : List (List Char)) (W : Report)
    (cm : Option (List Char)) (acc : List (List Char))
    (h : ∀ w ∈ ws, matchesLineStart w = true) :
    ws.foldl parseLine ⟨W, cm, acc⟩ = ⟨W, cm, ws.reverse ++ acc⟩ := by
  induction ws generalizing acc with
  | nil => rfl
  | cons w rest ih =>
      have hw : matchesLineStart w = true := h w (List.mem_cons_self _ _)
      rw [List.foldl_cons]
      rw [show parseLine ⟨W, cm, acc⟩ w = ⟨W, cm, w :: acc⟩ from by
        simp [parseLine, matches_not_header w hw, hw]]
      rw [ih _ (fun x hx => h x (List.mem_cons_of_mem _ hx))]
      simp

theorem mem_insertKey [DecidableEq κ] {d : List (κ × ν)} {k : κ} {v : ν}
    {q : κ × ν} (h : q ∈ insertKey k v d) : q = (k, v) ∨ q ∈ d := by
  induction d with
  | nil => simpa [insertKey] using h
  | cons p rest ih =>
      by_cases hp : p.1 = k
      · simp only [insertKey, if_pos hp, List.mem_cons] at h
        rcases h with h | h
        · exact Or.inl h
        · exact Or.inr (List.mem_cons_of_mem _ h)
      · simp only [insertKey, if_neg hp, List.mem_cons] at h
        rcases h with h | h
        · exact Or.inr (h ▸ List.mem_cons_self _ _)
        · rcases ih h with h' | h'
          · exact Or.inl h'
          · exact Or.inr (List.mem_cons_of_mem _ h')

theorem mem_insertKey_nodup [DecidableEq κ] {d : List (κ × ν)}
    (hd : nodupKeys d) {k : κ} {v : ν} {q : κ × ν}
    (h : q ∈ insertKey k v d) : q = (k, v) ∨ (q ∈ d ∧ q.1 ≠ k) := by
  induction d with
  | nil => exact Or.inl (by simpa [insertKey] using h)
  | cons p rest ih =>
      simp only [nodupKeys, List.map_cons, List.nodup_cons] at hd
      by_cases hp : p.1 = k
      · simp only [insertKey, if_pos hp, List.mem_cons] at h
        rcases h with h | h
        · exact Or.inl h
        · refine Or.inr ⟨List.mem_cons_of_mem _ h, fun he => ?_⟩
          exact hd.1 (hp ▸ he ▸ List.mem_map.mpr ⟨q, h, rfl⟩)
      · simp only [insertKey, if_neg hp, List.mem_cons] at h
        rcases h with h | h
        · exact Or.inr ⟨h ▸ List.mem_cons_self _ _, h ▸ hp⟩
        · rcases ih hd.2 h with h' | h'
          · exact Or.inl h'
          · exact Or.inr ⟨List.mem_cons_of_mem _ h'.1, h'.2⟩

/-- The successful shape of `unregisterChecker`: the checker's bucket loses
its first occurrence of the checker, and the two guarded structures lose the
checker exactly when they contained it. -/
theorem unregisterChecker_eq_some {st : LinterState} {c : Checker}
    {bucket : List Checker} (hb : lookupKey c.name st.checkersTable = some bucket)
    (hm : c ∈ bucket) :
    unregisterChecker st c = some
      ⟨insertKey c.name (bucket.erase c) st.checkersTable,
       if c ∈ st.reports then st.reports.erase c else st.reports,
       if c ∈ st.optionsProviders then st.optionsProviders.erase c
       else st.optionsProviders⟩ := by
  simp only [unregisterChecker, hb, if_pos hm]
  by_cases h1 : c ∈ st.reports <;> by_cases h2 : c ∈ st.optionsProviders <;>
    simp [h1, h2]

/-- Inversion: a successful `unregisterChecker` call found the checker in its
name's bucket and produced exactly the shape above. -/
theorem unregisterChecker_inv {st : LinterState} {c : Checker} {st' : LinterState}
    (h : unregisterChecker st c = some st') :
    ∃ bucket, lookupKey c.name st.checkersTable = some bucket ∧ c ∈ bucket ∧
      st' = ⟨insertKey c.name (bucket.erase c) st.checkersTable,
             if c ∈ st.reports then st.reports.erase c else st.reports,
             if c ∈ st.optionsProviders then st.optionsProviders.erase c
             else st.optionsProviders⟩ := by
  cases hb : lookupKey c.name st.checkersTable with
  | none => simp [unregisterChecker, hb] at h
  | some bucket =>
      by_cases hm : c ∈ bucket
      · refine ⟨bucket, rfl, hm, ?_⟩
        rw [unregisterChecker_eq_some hb hm] at h
        exact (Option.some_inj.mp h).symm
      · simp [unregisterChecker, hb, hm] at h

/-- A successful unregistration preserves the registry invariant. -/
theorem unregisterChecker_wf {st : LinterState} {c : Checker} {st' : LinterState}
    (hwf : wfLinter st) (h : unregisterChecker st c = some st') :
    wfLinter st' := by
  obtain ⟨bucket, hb, hm, rfl⟩ := unregisterChecker_inv h
  obtain ⟨hkeys, hbuckets, hrep, hopt⟩ := hwf
  refine ⟨?_, ?_, ?_, ?_⟩
  · rw [nodupKeys, keys_insertKey_of_mem _ _ _ (by simp [hb])]
    exact hkeys
  · intro q hq
    rcases mem_insertKey hq with h' | h'
    · subst h'
      have hbu := hbuckets _ (mem_of_lookupKey_eq_some hb)
      exact ⟨fun d hd => hbu.1 d (List.erase_subset _ _ hd), hbu.2.erase c⟩
    · exact hbuckets q h'
  · by_cases h1 : c ∈ st.reports
    · simp only [if_pos h1]
      exact hrep.erase c
    · simpa [h1] using hrep
  · by_cases h2 : c ∈ st.optionsProviders
    · simp only [if_pos h2]
      exact hopt.erase c
    · simpa [h2] using hopt

/-- Unregistering one checker keeps every other checker findable. -/
theorem unregisterChecker_findable {st : LinterState} {c d : Checker}
    {st' : LinterState} (hne : d ≠ c)
    (h : unregisterChecker st c = some st') (hd : findable d st) :
    findable d st' := by
  obtain ⟨bucket, hb, hm, rfl⟩ := unregisterChecker_inv h
  obtain ⟨bd, hbd, hdm⟩ := hd
  by_cases hname : d.name = c.name
  · rw [hname] at hbd
    have hbd' : bd = bucket := by
      rw [hbd] at hb
      exact Option.some_inj.mp hb
    subst hbd'
    refine ⟨bd.erase c, ?_, (List.mem_erase_of_ne hne).mpr hdm⟩
    simp only [hname]
    exact lookupKey_insertKey_self _ _ _
  · exact ⟨bd, by rw [lookupKey_insertKey_ne _ _ _ _ hname]; exact hbd, hdm⟩

/-- After its own successful unregistration under the registry invariant, a
checker is gone from all three structures. -/
theorem unregisterChecker_absent_self {st : LinterState} {c : Checker}
    {st' : LinterState} (hwf : wfLinter st)
    (h : unregisterChecker st c = some st') : absentEverywhere c st' := by
  obtain ⟨bucket, hb, hm, rfl⟩ := unregisterChecker_inv h
  obtain ⟨hkeys, hbuckets, hrep, hopt⟩ := hwf
  refine ⟨?_, ?_, ?_⟩
  · intro q hq hcq
    rcases mem_insertKey_nodup hkeys hq with h' | ⟨h', hne⟩
    · subst h'
      have hbu := hbuckets _ (mem_of_lookupKey_eq_some hb)
      exact ((hbu.2.mem_erase_iff).mp hcq).1 rfl
    · exact hne ((hbuckets q h').1 c hcq).symm
  · by_cases h1 : c ∈ st.reports
    · simp only [if_pos h1]
      intro hc
      exact ((hrep.mem_erase_iff).mp hc).1 rfl
    · simp only [if_neg h1]
      exact h1
  · by_cases h2 : c ∈ st.optionsProviders
    · simp only [if_pos h2]
      intro hc
      exact ((hopt.mem_erase_iff).mp hc).1 rfl
    · simp only [if_neg h2]
      exact h2

/-- Unregistration only removes: a checker absent everywhere stays absent. -/
theorem unregisterChecker_absent_mono {st : LinterState} {c d : Checker}
    {st' : LinterState} (h : unregisterChecker st d = some st')
    (ha : absentEverywhere c st) : absentEverywhere c st' := by
  obtain ⟨bucket, hb, hm, rfl⟩ := unregisterChecker_inv h
  obtain ⟨htab, hrep, hopt⟩ := ha
  refine ⟨?_, ?_, ?_⟩
  · intro q hq hcq
    rcases mem_insertKey hq with h' | h'
    · subst h'
      exact htab _ (mem_of_lookupKey_eq_some hb) (List.erase_subset _ _ hcq)
    · exact htab q h' hcq
  · by_cases h1 : d ∈ st.reports <;> simp only [if_pos, if_neg, h1]
    · exact fun hc => hrep (List.erase_subset _ _ hc)
    · exact hrep
  · by_cases h2 : d ∈ st.optionsProviders <;> simp only [if_pos, if_neg, h2]
    · exact fun hc => hopt (List.erase_subset _ _ hc)
    · exact hopt

theorem foldl_append_eq_flatMap (l : List α) (f : α → List β) (acc : List β) :
    l.foldl (fun u p => u ++ f p) acc = acc ++ l.flatMap f := by
  induction l generalizing acc with
  | nil => simp
  | cons p rest ih => simp [ih]

theorem findUselessCheckers_eq_flatMap (st : LinterState) (A : Finset (List Char)) :
    findUselessCheckers st A =
      st.checkersTable.flatMap
        (fun p => p.2.filter (fun ch => ch.msgs ∩ A = ∅)) := by
  rw [findUselessCheckers, foldl_append_eq_flatMap]
  simp

/-- Under the registry invariant the useless-checker list has no duplicates:
buckets are duplicate-free and checkers of different buckets carry different
names. -/
theorem findUselessCheckers_nodup {st : LinterState} (hwf : wfLinter st)
    (A : Finset (List Char)) : (findUselessCheckers st A).Nodup := by
  rw [findUselessCheckers_eq_flatMap, List.nodup_flatMap]
  refine ⟨fun p hp => ((hwf.2.1 p hp).2).filter _, ?_⟩
  have hpw : st.checkersTable.Pairwise (fun p q => p.1 ≠ q.1) :=
    List.pairwise_map.mp hwf.1
  refine List.Pairwise.imp_of_mem ?_ hpw
  intro p q hp hq hne
  intro d hdp hdq
  have h1 : d.name = p.1 := (hwf.2.1 p hp).1 d (List.mem_filter.mp hdp).1
  have h2 : d.name = q.1 := (hwf.2.1 q hq).1 d (List.mem_filter.mp hdq).1
  exact hne (h1 ▸ h2)

/-- Under the registry invariant every useless checker is findable through
its own name. -/
theorem findUselessCheckers_findable {st : LinterState} (hwf : wfLinter st)
    {A : Finset (List Char)} {d : Checker}
    (hd : d ∈ findUselessCheckers st A) : findable d st := by
  rw [findUselessCheckers_eq_flatMap] at hd
  obtain ⟨p, hp, hdp⟩ := List.mem_flatMap.mp hd
  have hdp' := (List.mem_filter.mp hdp).1
  refine ⟨p.2, ?_, hdp'⟩
  rw [(hwf.2.1 p hp).1 d hdp']
  exact lookupKey_eq_some_of_mem hwf.1 (by simpa using hp)

/-- Processing a duplicate-free list of findable checkers raises nowhere,
preserves the invariant, removes every processed checker from all three
structures, and never re-adds an absent checker. -/
theorem foldlM_unregister_total (L : List Checker) :
    ∀ st : LinterState, wfLinter st → (∀ d ∈ L, findable d st) → L.Nodup →
    ∃ st', L.foldlM (fun s checker => unregisterChecker s checker) st = some st' ∧
      wfLinter st' ∧ (∀ d ∈ L, absentEverywhere d st') ∧
      (∀ d, absentEverywhere d st → absentEverywhere d st') := by
  induction L with
  | nil =>
      intro st hwf _ _
      exact ⟨st, rfl, hwf, by simp, fun d ha => ha⟩
  | cons c rest ih =>
      intro st hwf hfind hnodup
      obtain ⟨hc_rest, hnodup_rest⟩ := List.nodup_cons.mp hnodup
      obtain ⟨bucket, hb, hm⟩ := hfind c (List.mem_cons_self _ _)
      have hsome := unregisterChecker_eq_some hb hm
      have hwf1 := unregisterChecker_wf hwf hsome
      have hfind1 : ∀ d ∈ rest, findable d _ := fun d hd =>
        unregisterChecker_findable (fun he => hc_rest (by rw [← he]; exact hd))
          hsome (hfind d (List.mem_cons_of_mem _ hd))
      obtain ⟨st', hfold, hwf', habs, hpres⟩ := ih _ hwf1 hfind1 hnodup_rest
      refine ⟨st', ?_, hwf', ?_, ?_⟩
      · rw [List.foldlM_cons, hsome]
        simpa using hfold
      · intro d hd
        rcases List.mem_cons.mp hd with rfl | hd
        · exact hpres d (unregisterChecker_absent_self hwf hsome)
        · exact habs d hd
      · exact fun d ha => hpres d (unregisterChecker_absent_mono hsome ha)

theorem tailJoin_cons_eq_joinLines (l : List Char) (ls : List (List Char)) :
    tailJoin (l :: ls) = '\n' :: joinLines (l :: ls) := by
  simp [tailJoin, joinLines, List.flatMap_cons]

theorem joinLines_splitLinesAux (s acc : List Char) :
    joinLines (splitLinesAux s acc) = acc.reverse ++ s := by
  induction s generalizing acc with
  | nil => simp [splitLinesAux, joinLines, tailJoin]
  | cons c rest ih =>
      by_cases h : c = '\n'
      · subst h
        simp only [splitLinesAux, if_pos rfl]
        obtain ⟨x, xs, hx⟩ : ∃ x xs, splitLinesAux rest [] = x :: xs := by
          cases hsp : splitLinesAux rest [] with
          | nil => exact absurd hsp (splitLinesAux_ne_nil rest [])
          | cons x xs => exact ⟨x, xs, rfl⟩
        rw [hx]
        show acc.reverse ++ tailJoin (x :: xs) = acc.reverse ++ '\n' :: rest
        rw [tailJoin_cons_eq_joinLines, ← hx, ih]
        simp
      · simp only [splitLinesAux, if_neg h]
        rw [ih]
        simp

/-- Joining the split lines restores the original text. -/
theorem joinLines_splitLines (s : List Char) : joinLines (splitLines s) = s := by
  simpa using joinLines_splitLinesAux s []

theorem getLastD_ne_nil_default (l : List α) (h : l ≠ []) (d d' : α) :
    l.getLastD d = l.getLastD d' := by
  cases l with
  | nil => exact absurd rfl h
  | cons a l => rw [List.getLastD_cons, List.getLastD_cons]

theorem getLastD_append_of_ne_nil (l1 l2 : List α) (h : l2 ≠ []) :
    ∀ d, (l1 ++ l2).getLastD d = l2.getLastD d := by
  induction l1 with
  | nil => intro d; rfl
  | cons a l1 ih =>
      intro d
      rw [List.cons_append, List.getLastD_cons, ih a]
      exact getLastD_ne_nil_default l2 h a d

/-- The line list of a nonempty run of well-formed warning records is
nonempty and does not end with an empty line. -/
theorem recLines_getLastD_ne (ws : List (List Char))
    (h : ∀ w ∈ ws, validWarning w) (hne : ws ≠ []) :
    ws.flatMap splitLines ≠ [] ∧
    ∀ d, (ws.flatMap splitLines).getLastD d ≠ [] := by
  induction ws with
  | nil => exact absurd rfl hne
  | cons w rest ih =>
      cases rest with
      | nil =>
          simp only [List.flatMap_cons, List.flatMap_nil, List.append_nil]
          refine ⟨splitLines_ne_nil w, fun d => ?_⟩
          obtain ⟨x, xs, hx⟩ : ∃ x xs, splitLines w = x :: xs := by
            cases hs : splitLines w with
            | nil => exact absurd hs (splitLines_ne_nil w)
            | cons x xs => exact ⟨x, xs, rfl⟩
          have h3 := (h w (List.mem_cons_self _ _)).2.2
          rw [hx] at h3 ⊢
          rwa [List.getLastD_cons] at h3 ⊢
      | cons w2 rest2 =>
          have ihr := ih (fun x hx => h x (List.mem_cons_of_mem _ hx))
            (List.cons_ne_nil _ _)
          constructor
          · intro he
            rw [List.flatMap_cons] at he
            exact splitLines_ne_nil w (List.append_eq_nil.mp he).1
          · intro d
            rw [List.flatMap_cons, getLastD_append_of_ne_nil _ _ ihr.1]
            exact ihr.2 d

/-- Splitting the formatter's parts into lines yields the block line lists,
provided module names carry no newline. -/
theorem flatMap_parts_eq_blockLines (S : Report) (h : ∀ p ∈ S, '\n' ∉ p.1) :
    (S.flatMap (fun p => (prefixModuleName ++ p.1) :: sortWarnings p.2)).flatMap
        splitLines = S.flatMap blockLines := by
  induction S with
  | nil => simp
  | cons q S' ih =>
      rw [List.flatMap_cons, List.flatMap_append,
        ih (fun p hp => h p (List.mem_cons_of_mem _ hp))]
      rw [List.flatMap_cons]
      rw [splitLines_no_newline (prefixModuleName ++ q.1) ?hnl]
      · simp [blockLines]
      case hnl =>
        intro hmem
        rcases List.mem_append.mp hmem with hmem | hmem
        · exact absurd hmem (by decide)
        · exact h q (List.mem_cons_self _ _) hmem

/-- Membership in the canonical warning order is membership in the set. -/
theorem mem_sortWarnings (s : WarningSet) (w : List Char) :
    w ∈ sortWarnings s ↔ w ∈ s := by
  rcases s with ⟨val, hnodup⟩
  revert hnodup
  refine Quotient.inductionOn val (fun l hnodup => ?_)
  show w ∈ isort lexLe l ↔ _
  rw [(isort_perm lexLe l).mem_iff]
  simp [Finset.mem_mk]

theorem sortWarnings_toFinset (s : WarningSet) : (sortWarnings s).toFinset = s :=
  Finset.ext fun w => by rw [List.mem_toFinset, mem_sortWarnings]

/-- The formatted text of a nonempty report does not end with an empty line:
its last line is either the last module's header or the nonempty last line
of a well-formed warning record. -/
theorem blockLines_getLastD_ne (S : Report) (hS : S ≠ [])
    (h : ∀ p ∈ S, ∀ w ∈ p.2, validWarning w) :
    (S.flatMap blockLines).getLastD [] ≠ [] := by
  induction S with
  | nil => exact absurd rfl hS
  | cons q S' ih =>
      cases S' with
      | nil =>
          simp only [List.flatMap_cons, List.flatMap_nil, List.append_nil]
          rw [blockLines]
          by_cases hws : sortWarnings q.2 = []
          · rw [hws]
            simp only [List.flatMap_nil, List.getLastD_cons, List.getLastD_nil]
            intro he
            have : prefixModuleName = [] := (List.append_eq_nil.mp he).1
            exact absurd this (by decide)
          · have hrl := recLines_getLastD_ne (sortWarnings q.2)
              (fun w hw => h q (List.mem_cons_self _ _) w
                ((mem_sortWarnings q.2 w).mp hw)) hws
            rw [List.getLastD_cons]
            exact hrl.2 _
      | cons q2 S2 =>
          have ihr := ih (List.cons_ne_nil _ _)
            (fun p hp w hw => h p (List.mem_cons_of_mem _ hp) w hw)
          rw [List.flatMap_cons]
          rw [getLastD_append_of_ne_nil _ _ ?ne]
          · exact ihr
          case ne =>
            intro he
            rw [List.flatMap_cons] at he
            exact List.cons_ne_nil _ _ ((List.append_eq_nil.mp he).1)

/-- The line list of a formatted report: one block per module, in canonical
order, with no trailing empty line dropped. -/
theorem pyLines_formatWarnings (S : Report)
    (hval : ∀ p ∈ S, validModuleName p.1 ∧ ∀ w ∈ p.2, validWarning w) :
    pyLines (joinLines (S.flatMap
        (fun p => (prefixModuleName ++ p.1) :: sortWarnings p.2)))
      = S.flatMap blockLines := by
  cases S with
  | nil =>
      simp only [List.flatMap_nil]
      decide
  | cons q S' =>
      have hflat : (q :: S').flatMap
          (fun p => (prefixModuleName ++ p.1) :: sortWarnings p.2)
          = (prefixModuleName ++ q.1) :: (sortWarnings q.2 ++ S'.flatMap
              (fun p => (prefixModuleName ++ p.1) :: sortWarnings p.2)) := by
        simp
      have hsplitjoin : splitLines (joinLines ((q :: S').flatMap
          (fun p => (prefixModuleName ++ p.1) :: sortWarnings p.2)))
          = (q :: S').flatMap blockLines := by
        rw [hflat, splitLines_joinLines, ← hflat]
        exact flatMap_parts_eq_blockLines _ (fun p hp => (hval p hp).1.2.1)
      rw [pyLines, hsplitjoin]
      rw [if_neg (blockLines_getLastD_ne (q :: S') (by simp)
        (fun p hp w hw => (hval p hp).2 w hw))]

/-- Folding the parser over continuation lines extends the open record with
each line, newline-joined. -/
theorem foldl_parseLine_contLines (t : List (List Char)) :
    ∀ (W : Report) (cm : Option (List Char)) (p : List Char)
      (acc : List (List Char)),
      (∀ l ∈ t, matchesLineStart l = false ∧ isHeaderLine l = false) →
      t.foldl parseLine ⟨W, cm, p :: acc⟩ = ⟨W, cm, (p ++ tailJoin t) :: acc⟩ := by
  induction t with
  | nil =>
      intro W cm p acc _
      simp [tailJoin]
  | cons l ls ih =>
      intro W cm p acc h
      have hl := h l (List.mem_cons_self _ _)
      rw [List.foldl_cons]
      rw [show parseLine ⟨W, cm, p :: acc⟩ l = ⟨W, cm, (p ++ '\n' :: l) :: acc⟩
        from by simp [parseLine, hl.1, hl.2]]
      rw [ih _ _ _ _ (fun x hx => h x (List.mem_cons_of_mem _ hx))]
      simp [tailJoin, List.flatMap_cons, List.append_assoc]

/-- Folding the parser over the line lists of well-formed warning records
accumulates exactly those records, most recent first. -/
theorem foldl_parseLine_records (ws : List (List Char)) :
    ∀ (W : Report) (cm : Option (List Char)) (acc : List (List Char)),
      (∀ w ∈ ws, validWarning w) →
      (ws.flatMap splitLines).foldl parseLine ⟨W, cm, acc⟩
        = ⟨W, cm, ws.reverse ++ acc⟩ := by
  induction ws with
  | nil =>
      intro W cm acc _
      simp
  | cons w rest ih =>
      intro W cm acc h
      have hw := h w (List.mem_cons_self _ _)
      obtain ⟨hd, tl, hsplit⟩ : ∃ hd tl, splitLines w = hd :: tl := by
        cases hs : splitLines w with
        | nil => exact absurd hs (splitLines_ne_nil w)
        | cons a b => exact ⟨a, b, rfl⟩
      have hmhd : matchesLineStart hd = true := by
        have h1 := hw.1
        rw [hsplit] at h1
        simpa using h1
      rw [List.flatMap_cons, List.foldl_append, hsplit, List.foldl_cons]
      rw [show parseLine ⟨W, cm, acc⟩ hd = ⟨W, cm, hd :: acc⟩ from by
        simp [parseLine, matches_not_header hd hmhd, hmhd]]
      rw [foldl_parseLine_contLines tl W cm hd acc ?tlvalid]
      rw [show hd ++ tailJoin tl = w from by
        rw [show hd ++ tailJoin tl = joinLines (hd :: tl) from rfl, ← hsplit,
          joinLines_splitLines]]
      rw [ih _ _ _ (fun x hx => h x (List.mem_cons_of_mem _ hx))]
      simp
      case tlvalid =>
        intro l hl
        have h2 := hw.2.1
        rw [hsplit] at h2
        exact h2 l hl

/-- Folding the parser over whole module blocks, starting inside an open
module, builds the dict of all the blocks over the flush of the open one. -/
theorem foldl_parseLine_blocks (S : Report) :
    ∀ (W : Report) (k : List Char) (acc : List (List Char)),
      (∀ p ∈ S, validModuleName p.1 ∧ ∀ w ∈ p.2, validWarning w) → k ≠ [] →
      flushModule ((S.flatMap blockLines).foldl parseLine ⟨W, some k, acc⟩) =
        S.foldl (fun W' p => insertKey p.1 p.2 W')
          (insertKey k acc.reverse.toFinset W) := by
  induction S with
  | nil =>
      intro W k acc _ hk
      simp only [List.flatMap_nil, List.foldl_nil]
      simp [flushModule, hk]
  | cons q S' ih =>
      intro W k acc hval hk
      have hq := hval q (List.mem_cons_self _ _)
      rw [List.flatMap_cons, List.foldl_append]
      rw [blockLines, List.foldl_cons]
      rw [show parseLine ⟨W, some k, acc⟩ (prefixModuleName ++ q.1) =
          ⟨insertKey k acc.reverse.toFinset W, some q.1, []⟩ from by
        simp [parseLine, isHeaderLine_prefix_append,
          moduleNameOf_prefix_append q.1 hq.1.2.2, flushModule, hk]]
      rw [foldl_parseLine_records (sortWarnings q.2) _ _ _
        (fun w hw => hq.2 w ((mem_sortWarnings q.2 w).mp hw))]
      rw [ih _ _ _ (fun p hp => hval p (List.mem_cons_of_mem _ hp)) hq.1.1]
      rw [List.append_nil, List.reverse_reverse, sortWarnings_toFinset]
      rw [List.foldl_cons]

/-- Lookup in the dict built by inserting distinct-keyed entries in order. -/
theorem lookupKey_foldl_insert (S : Report) :
    ∀ (W : Report) (key : List Char), nodupKeys S →
      lookupKey key (S.foldl (fun W' p => insertKey p.1 p.2 W') W) =
        match lookupKey key S with
        | some v => some v
        | none => lookupKey key W := by
  induction S with
  | nil =>
      intro W key _
      simp [lookupKey]
  | cons p rest ih =>
      intro W key hnodup
      simp only [nodupKeys, List.map_cons, List.nodup_cons] at hnodup
      rw [List.foldl_cons, ih _ _ hnodup.2]
      by_cases hk : p.1 = key
      · subst hk
        have hnone : lookupKey p.1 rest = none := lookupKey_eq_none_iff.mpr hnodup.1
        simp [lookupKey, hnone, lookupKey_insertKey_self]
      · simp only [lookupKey, if_neg hk]
        cases lookupKey key rest with
        | some v => rfl
        | none => simp [lookupKey_insertKey_ne _ _ _ _ (fun he => hk he.symm)]

/-! ### Claim theorems -/

/-- Claim C8: when the engine's command-line option parser terminates with
exit status 2 (malformed options), `run` re-raises the termination with the
status remapped to 32; a termination with any other status is propagated
with its status unchanged. -/
theorem run_remapsExitCode (diffOption : Option (List Char)) (code : Option Nat) :
    runModel (Except.error (some 2)) diffOption = Except.error (some 32) ∧
    (code ≠ some 2 → runModel (Except.error code) diffOption = Except.error code) := by
  refine ⟨by simp [runModel, remapExitCode], fun h => ?_⟩
  simp [runModel, remapExitCode, h]

/-- Witness for C8 at a concrete non-2 status. -/
theorem run_remapsExitCode_witness :
    runModel (Except.error (some 2)) none = Except.error (some 32) ∧
    runModel (Except.error (some 5)) none = Except.error (some 5) :=
  ⟨(run_remapsExitCode none (some 5)).1,
   (run_remapsExitCode none (some 5)).2 (by decide)⟩

/-- Claim C6 counterexample: with no resolvable arguments, the orchestrator
displays help but does NOT stop — the engine's `check` is still invoked on
the empty argument list, refuting the claim as stated. -/
theorem run_emptyArgs_counterexample : ¬ helpStopsWithoutEngine := by
  intro h
  have := (h none [RunEvent.displayHelp, RunEvent.engineCheck []] rfl).2 []
  simp at this

/-- Claim C6 (amended): on an empty resolved argument list the orchestrator
displays the help message but does not stop: the lint engine's evaluation is
still invoked, on the empty argument list. -/
theorem run_emptyArgs_displaysHelp_stillChecks (diffOption : Option (List Char)) :
    ∃ events, runModel (Except.ok []) diffOption = Except.ok events ∧
      RunEvent.displayHelp ∈ events ∧ RunEvent.engineCheck [] ∈ events := by
  cases diffOption with
  | none => exact ⟨_, rfl, by simp, by simp⟩
  | some v => exact ⟨_, rfl, by simp, by simp⟩

/-- Claim C5 counterexample: the diff callback on a nonexistent baseline path
prints exactly the specified message, but `sys.exit()` carries code `None`,
whose process exit status is 0 — not non-zero as claimed. -/
theorem diffMissingBaseline_counterexample : ¬ missingBaselineExitsNonzero := by
  intro h
  obtain ⟨code, hc, hnz⟩ := h [] "missing.txt".data (by simp)
  have hcode : code = none := by
    simp [optionCallbackDiff] at hc
    exact hc.symm
  exact hnz (by simp [hcode, pythonExitStatus])

/-- Claim C5 (amended): invoking diff mode with a baseline path that names no
existing file writes exactly `"Error: Result file '<path>' does not exist."`
to the error stream and terminates before any engine evaluation (the raised
`SystemExit` propagates through `run` with no engine events) — but with exit
status 0, since `sys.exit()` is called without an argument. -/
theorem optionCallbackDiff_missingFile (existingPaths : List (List Char))
    (val : List Char) (h : val ∉ existingPaths) :
    optionCallbackDiff existingPaths val =
      DiffCallbackResult.exit (errorResultNotExist val) none ∧
    pythonExitStatus none = 0 ∧
    (∀ diffOption, runModel (Except.error none) diffOption = Except.error none) := by
  refine ⟨by simp [optionCallbackDiff, h], rfl, fun d => ?_⟩
  simp [runModel, remapExitCode]

/-- Witness for C5 (amended) at a concrete missing path. -/
theorem optionCallbackDiff_missingFile_witness :
    optionCallbackDiff ["present.txt".data] "missing.txt".data =
      DiffCallbackResult.exit (errorResultNotExist "missing.txt".data) none ∧
    pythonExitStatus none = 0 ∧
    (∀ diffOption, runModel (Except.error none) diffOption = Except.error none) :=
  optionCallbackDiff_missingFile ["present.txt".data] "missing.txt".data (by decide)

/-- Claim C4 counterexample: when the checker is absent from the name-indexed
checker table (here: present in the report table and the option-provider
list), `unregisterChecker` raises (`KeyError` from
`self.linter._checkers[checker.name]`), refuting the claim as stated. -/
theorem unregister_raises_counterexample : ¬ removalNeverRaises := by
  intro h
  have := h stateMissingTableEntry headerChecker
  simp [unregisterChecker, stateMissingTableEntry, lookupKey] at this

/-- Claim C4 (amended): `unregisterChecker` does not raise provided the
checker is present in the name-indexed checker table; absence from the
report table and/or the option-provider list is tolerated as a no-op (the
untouched structure is left unchanged), but absence from the checker table
raises. -/
theorem unregisterChecker_tolerates_partialAbsence (st : LinterState)
    (checker : Checker) (bucket : List Checker)
    (hb : lookupKey checker.name st.checkersTable = some bucket)
    (hmem : checker ∈ bucket) :
    ∃ st', unregisterChecker st checker = some st' ∧
      (checker ∉ st.reports → st'.reports = st.reports) ∧
      (checker ∉ st.optionsProviders → st'.optionsProviders = st.optionsProviders) := by
  simp only [unregisterChecker, hb, if_pos hmem]
  refine ⟨_, rfl, fun hnr => ?_, fun hno => ?_⟩
  · by_cases h2 : checker ∈ st.optionsProviders <;> simp [hnr, h2]
  · by_cases h2 : checker ∈ st.reports <;> simp [hno, h2]

/-- Witness for C4 (amended): a checker present only in the checker table is
removed without a raise and the other two structures stay unchanged. -/
theorem unregisterChecker_tolerates_partialAbsence_witness :
    ∃ st', unregisterChecker ⟨[("header".data, [headerChecker])], [], []⟩ headerChecker
        = some st' ∧
      (headerChecker ∉ ([] : List Checker) →
        st'.reports = ([] : List Checker)) ∧
      (headerChecker ∉ ([] : List Checker) →
        st'.optionsProviders = ([] : List Checker)) :=
  unregisterChecker_tolerates_partialAbsence
    ⟨[("header".data, [headerChecker])], [], []⟩ headerChecker [headerChecker]
    (by decide) (by decide)

/-- Claim C1 counterexample: the round trip fails as stated.  The report
mapping the empty module name to one pattern-matching warning formats to a
well-formed text, but the parser never flushes a module whose name is the
empty string (Python truthiness of `currentModule`), so parsing returns the
empty report. -/
theorem roundTrip_counterexample : ¬ roundTripAsStated := by
  intro h
  have h2 := h [([], {"W9001: x".data})] (by decide) (by decide) []
  rw [show computeWarnings (formatWarnings [([], {"W9001: x".data})]) = []
    from by decide] at h2
  exact absurd h2 (by decide)

/-- Claim C1 (amended): for every ModuleReport whose module names are
non-empty and free of embedded newlines and header-prefix occurrences, and
whose warning records are well-formed (primary line matches `^[WCEFR]\d{4}:`,
continuation lines neither match the pattern nor start with the header
prefix, no record ends in a newline), parsing the canonically formatted text
yields the report back: every module name looks up to the same warning set. -/
theorem parse_format_roundTrip (m : Report) (hnodup : nodupKeys m)
    (hval : ∀ p ∈ m, validModuleName p.1 ∧ ∀ w ∈ p.2, validWarning w)
    (key : List Char) :
    lookupKey key (computeWarnings (formatWarnings m)) = lookupKey key m := by
  have hperm : (sortReport m).Perm m := isort_perm _ m
  have hm_eq : lookupKey key m = lookupKey key (sortReport m) :=
    lookupKey_perm hperm.symm hnodup key
  have hnodupS : nodupKeys (sortReport m) :=
    ((hperm.map Prod.fst).nodup_iff).mpr hnodup
  have hvalS : ∀ p ∈ sortReport m,
      validModuleName p.1 ∧ ∀ w ∈ p.2, validWarning w :=
    fun p hp => hval p (hperm.mem_iff.mp hp)
  rw [hm_eq, formatWarnings, computeWarnings,
    pyLines_formatWarnings (sortReport m) hvalS]
  cases hS : sortReport m with
  | nil => simp [computeWarningsLines, flushModule, lookupKey]
  | cons q S' =>
      rw [hS] at hvalS hnodupS
      have hq := hvalS q (List.mem_cons_self _ _)
      rw [computeWarningsLines, List.flatMap_cons, List.foldl_append,
        blockLines, List.foldl_cons]
      rw [show parseLine ⟨[], none, []⟩ (prefixModuleName ++ q.1)
          = ⟨[], some q.1, []⟩ from by
        simp [parseLine, isHeaderLine_prefix_append,
          moduleNameOf_prefix_append q.1 hq.1.2.2, flushModule]]
      rw [foldl_parseLine_records (sortWarnings q.2) _ _ _
        (fun w hw => hq.2 w ((mem_sortWarnings q.2 w).mp hw))]
      rw [foldl_parseLine_blocks S' _ q.1 _
        (fun p hp => hvalS p (List.mem_cons_of_mem _ hp)) hq.1.1]
      rw [List.append_nil, List.reverse_reverse, sortWarnings_toFinset]
      have hfold : S'.foldl (fun W' p => insertKey p.1 p.2 W')
          (insertKey q.1 q.2 []) =
          (q :: S').foldl (fun W' p => insertKey p.1 p.2 W') [] := rfl
      rw [hfold, lookupKey_foldl_insert (q :: S') [] key hnodupS]
      cases lookupKey key (q :: S') with
      | some v => rfl
      | none => simp [lookupKey]

/-- Witness for C1 (amended): the spec's Scenario A report round-trips. -/
theorem parse_format_roundTrip_witness :
    lookupKey "bar".data (computeWarnings (formatWarnings
      [("foo".data, {"W9001:  1,0: Missing copyright header".data}),
       ("bar".data, {"W9002:  1,0: Missing a reference to test module in header".data,
                     "C0111:  10,0: Missing docstring".data})])) =
    lookupKey "bar".data
      [("foo".data, {"W9001:  1,0: Missing copyright header".data}),
       ("bar".data, {"W9002:  1,0: Missing a reference to test module in header".data,
                     "C0111:  10,0: Missing docstring".data})] :=
  parse_format_roundTrip
    [("foo".data, {"W9001:  1,0: Missing copyright header".data}),
     ("bar".data, {"W9002:  1,0: Missing a reference to test module in header".data,
                   "C0111:  10,0: Missing docstring".data})]
    (by decide) (by decide) "bar".data

/-- Claim C2: the diff engine returns exactly the map that, for each module
of the current report, contains the current warnings minus the baseline's
(defaulting to the empty set), restricted to modules where the difference is
non-empty; modules only in the baseline never appear, and the diff of a
report with itself is empty. -/
theorem generateDiff_correct (baseline current : Report) (h : nodupKeys current) :
    (∀ k, lookupKey k (generateDiffMap baseline current) =
      match lookupKey k current with
      | some ws =>
          if ws \ getKeyD baseline k ∅ = ∅ then none
          else some (ws \ getKeyD baseline k ∅)
      | none => none) ∧
    generateDiffMap current current = [] := by
  constructor
  · intro k
    rw [generateDiffMap, generateDiffMap_fold_lookup current baseline [] k h]
    cases lookupKey k current <;> simp [lookupKey]
  · rw [generateDiffMap]
    refine generateDiffMap_fold_self current current [] (fun p hp => ?_)
    have : lookupKey p.1 current = some p.2 :=
      lookupKey_eq_some_of_mem h (by simpa using hp)
    simp [getKeyD, this]

/-- Witness for C2: spec §8 Scenario B — current adds one warning to `foo`
and a new module `baz`; the diff contains exactly those and omits `bar`. -/
theorem generateDiff_correct_witness :
    (∀ k, lookupKey k (generateDiffMap
        [("foo".data, {"W9001: a".data}),
         ("bar".data, {"W9002: b".data, "C0111: c".data})]
        [("foo".data, {"W9001: a".data, "C0301: d".data}),
         ("bar".data, {"W9002: b".data, "C0111: c".data}),
         ("baz".data, {"W9001: a".data})]) =
      match lookupKey k
        [("foo".data, {"W9001: a".data, "C0301: d".data}),
         ("bar".data, {"W9002: b".data, "C0111: c".data}),
         ("baz".data, {"W9001: a".data})] with
      | some ws =>
          if ws \ getKeyD [("foo".data, {"W9001: a".data}),
              ("bar".data, {"W9002: b".data, "C0111: c".data})] k ∅ = ∅ then none
          else some (ws \ getKeyD [("foo".data, {"W9001: a".data}),
              ("bar".data, {"W9002: b".data, "C0111: c".data})] k ∅)
      | none => none) ∧
    generateDiffMap
        [("foo".data, {"W9001: a".data, "C0301: d".data}),
         ("bar".data, {"W9002: b".data, "C0111: c".data}),
         ("baz".data, {"W9001: a".data})]
        [("foo".data, {"W9001: a".data, "C0301: d".data}),
         ("bar".data, {"W9002: b".data, "C0111: c".data}),
         ("baz".data, {"W9001: a".data})] = [] :=
  generateDiff_correct
    [("foo".data, {"W9001: a".data}),
     ("bar".data, {"W9002: b".data, "C0111: c".data})]
    [("foo".data, {"W9001: a".data, "C0301: d".data}),
     ("bar".data, {"W9002: b".data, "C0111: c".data}),
     ("baz".data, {"W9001: a".data})]
    (by decide)

/-- Claim C9: `findUselessCheckers` returns exactly the registered checkers
(from every bucket of the name-indexed table) whose declared message set has
empty intersection with the allowed messages; it reads the engine state and
performs no mutation (in this embedding it is a pure function of the state). -/
theorem findUselessCheckers_spec (st : LinterState) (A : Finset (List Char))
    (c : Checker) :
    c ∈ findUselessCheckers st A ↔
      (∃ p ∈ st.checkersTable, c ∈ p.2) ∧ c.msgs ∩ A = ∅ := by
  rw [findUselessCheckers, mem_findUselessCheckers_fold]
  simp only [List.not_mem_nil, false_or]
  constructor
  · rintro ⟨p, hp, hc, hd⟩
    exact ⟨⟨p, hp, hc⟩, hd⟩
  · rintro ⟨⟨p, hp, hc⟩, hd⟩
    exact ⟨p, hp, hc, hd⟩

/-- Claim C3: for every checker registered in the engine (under the engine's
registry invariant: a duplicate-key-free checker table whose buckets hold
distinct checkers filed under their own names, and duplicate-free report and
option-provider structures) whose declared message set has empty
intersection with the allow-list, `restrictCheckers` completes without a
raise and afterwards the checker is absent from the name-indexed checker
table, the report table, and the option-provider list. -/
theorem restrictCheckers_removesUseless (st : LinterState)
    (A : Finset (List Char)) (c : Checker)
    (hkeys : nodupKeys st.checkersTable)
    (hbuckets : ∀ p ∈ st.checkersTable, (∀ d ∈ p.2, d.name = p.1) ∧ p.2.Nodup)
    (hrep : st.reports.Nodup) (hopt : st.optionsProviders.Nodup)
    (hreg : ∃ p ∈ st.checkersTable, c ∈ p.2)
    (hmsgs : c.msgs ∩ A = ∅) :
    ∃ st', restrictCheckers st A = some st' ∧
      (∀ p ∈ st'.checkersTable, c ∉ p.2) ∧
      c ∉ st'.reports ∧ c ∉ st'.optionsProviders := by
  have hwf : wfLinter st := ⟨hkeys, hbuckets, hrep, hopt⟩
  have hcL : c ∈ findUselessCheckers st A := by
    rw [findUselessCheckers, mem_findUselessCheckers_fold]
    obtain ⟨p, hp, hcp⟩ := hreg
    exact Or.inr ⟨p, hp, hcp, hmsgs⟩
  obtain ⟨st', hfold, _, habs, _⟩ :=
    foldlM_unregister_total (findUselessCheckers st A) st hwf
      (fun d hd => findUselessCheckers_findable hwf hd)
      (findUselessCheckers_nodup hwf A)
  exact ⟨st', hfold, (habs c hcL).1, (habs c hcL).2.1, (habs c hcL).2.2⟩

/-- Witness for C3: with allow-list `{"C0111"}`, the header checker (whose
messages are `W9001`/`W9002`) is unregistered from all three structures. -/
theorem restrictCheckers_removesUseless_witness :
    ∃ st', restrictCheckers
        ⟨[("header".data, [headerChecker]),
          ("modulename".data, [⟨1, "modulename".data, {"C0111".data}⟩])],
         [headerChecker, ⟨1, "modulename".data, {"C0111".data}⟩],
         [headerChecker, ⟨1, "modulename".data, {"C0111".data}⟩]⟩
        {"C0111".data} = some st' ∧
      (∀ p ∈ st'.checkersTable, headerChecker ∉ p.2) ∧
      headerChecker ∉ st'.reports ∧ headerChecker ∉ st'.optionsProviders :=
  restrictCheckers_removesUseless
    ⟨[("header".data, [headerChecker]),
      ("modulename".data, [⟨1, "modulename".data, {"C0111".data}⟩])],
     [headerChecker, ⟨1, "modulename".data, {"C0111".data}⟩],
     [headerChecker, ⟨1, "modulename".data, {"C0111".data}⟩]⟩
    {"C0111".data} headerChecker (by decide) (by decide) (by decide) (by decide)
    (by decide) (by decide)

/-- Claim C7 counterexample: an empty line with an open warning record IS
appended to the record (with a line break), refuting the claim's assertion
that empty lines are not appended as continuations — the source's `else`
branch only tests `if warningsCurrentModule:`, not the line itself. -/
theorem parse_emptyLine_counterexample : ¬ continuationsAsSpecified := by
  intro h
  have h2 := (h [] (by decide) (by decide)).2.2 rfl
  rw [show computeWarningsLines [headerFoo, warningW9001, []] =
      [(fooName, {warningW9001 ++ ['\n']})] from by decide] at h2
  exact absurd h2 (by decide)

/-- Claim C7 (amended): during parsing, every line that is neither a
module-header line nor a MessageID-pattern line is appended (joined with a
line break) to the most recently opened record whenever one is open — empty
lines included — and is discarded without error when no record is open. -/
theorem parse_continuationHandling (other : List Char)
    (hh : isHeaderLine other = false) (hm : matchesLineStart other = false) :
    computeWarningsLines [headerFoo, warningW9001, other] =
      [(fooName, {warningW9001 ++ '\n' :: other})] ∧
    computeWarningsLines [headerFoo, other] = [(fooName, (∅ : WarningSet))] := by
  constructor
  · show flushModule (parseLine (parseLine (parseLine ⟨[], none, []⟩ headerFoo)
      warningW9001) other) = _
    rw [show parseLine (parseLine ⟨[], none, []⟩ headerFoo) warningW9001 =
        ⟨[], some fooName, [warningW9001]⟩ from by decide]
    rw [show parseLine ⟨[], some fooName, [warningW9001]⟩ other =
        ⟨[], some fooName, [warningW9001 ++ '\n' :: other]⟩ from by
      simp [parseLine, hh, hm]]
    rw [show flushModule ⟨[], some fooName, [warningW9001 ++ '\n' :: other]⟩ =
        insertKey fooName [warningW9001 ++ '\n' :: other].toFinset [] from by
      simp [flushModule, show fooName ≠ [] from by decide]]
    simp [insertKey]
  · show flushModule (parseLine (parseLine ⟨[], none, []⟩ headerFoo) other) = _
    rw [show parseLine ⟨[], none, []⟩ headerFoo = ⟨[], some fooName, []⟩ from
      by decide]
    rw [show parseLine ⟨[], some fooName, []⟩ other = ⟨[], some fooName, []⟩
      from by simp [parseLine, hh, hm]]
    rw [show flushModule ⟨[], some fooName, []⟩ =
        insertKey fooName [].toFinset [] from by
      simp [flushModule, show fooName ≠ [] from by decide]]
    simp [insertKey]

/-- Witness for C7 (amended) at a concrete free-text continuation line. -/
theorem parse_continuationHandling_witness :
    computeWarningsLines [headerFoo, warningW9001,
        "see ticket 1234 for details".data] =
      [(fooName, {warningW9001 ++ '\n' :: "see ticket 1234 for details".data})] ∧
    computeWarningsLines [headerFoo, "see ticket 1234 for details".data] =
      [(fooName, (∅ : WarningSet))] :=
  parse_continuationHandling "see ticket 1234 for details".data
    (by decide) (by decide)

/-- Claim C10: when the same module name heads several blocks, the flush at a
later header (or at end of input) assigns `warnings[name] = set(acc)`,
overwriting — not merging — whatever an earlier block stored: whatever the
preceding lines were, the parsed report maps `name` to exactly the warnings
of its final block. -/
theorem computeWarnings_lastBlock_overwrites (pre : List (List Char))
    (name : List Char) (ws : List (List Char)) (hname : name ≠ [])
    (hnocc : ¬ prefixModuleName <:+: name)
    (hws : ∀ w ∈ ws, matchesLineStart w = true) :
    lookupKey name
        (computeWarningsLines (pre ++ (prefixModuleName ++ name) :: ws)) =
      some ws.toFinset := by
  rw [computeWarningsLines, List.foldl_append, List.foldl_cons]
  rw [show parseLine (pre.foldl parseLine ⟨[], none, []⟩)
        (prefixModuleName ++ name) =
      ⟨flushModule (pre.foldl parseLine ⟨[], none, []⟩), some name, []⟩ from by
    simp [parseLine, isHeaderLine_prefix_append, moduleNameOf_prefix_append name hnocc]]
  rw [foldl_parseLine_warningLines ws _ _ _ hws]
  rw [show flushModule ⟨flushModule (pre.foldl parseLine ⟨[], none, []⟩),
        some name, ws.reverse ++ []⟩ =
      insertKey name ws.toFinset
        (flushModule (pre.foldl parseLine ⟨[], none, []⟩)) from by
    simp [flushModule, hname]]
  exact lookupKey_insertKey_self _ _ _

/-- Witness for C10: module `foo` appears twice; the report keeps only the
second block's warning. -/
theorem computeWarnings_lastBlock_overwrites_witness :
    lookupKey fooName
        (computeWarningsLines ([headerFoo, warningW9001] ++
          (prefixModuleName ++ fooName) :: ["C0301: 10,0: Line too long".data])) =
      some ["C0301: 10,0: Line too long".data].toFinset :=
  computeWarnings_lastBlock_overwrites [headerFoo, warningW9001] fooName
    ["C0301: 10,0: Line too long".data] (by decide) (by decide)
    (by intro w hw; simp at hw; subst hw; decide)

end TwistedChecker
